import Mathlib

/-!
Verification of the sqlite3-multiple-ciphers WASM release fetcher.

The repository is a small Node.js pipeline: fetch the latest GitHub release
of utelle/SQLite3MultipleCiphers, select the asset whose name ends in
`-wasm.zip`, download it, and extract the `jswasm` directory of the archive
into a destination folder.  The repository holds two pipeline variants:

* `src/index.js` — the `https`/`extract-zip` variant: `fetchLatestRelease`,
  `downloadFile` (recursive redirect handling), `extractWasmFiles` +
  `findJswasmDirectory`, and `main`.
* an unnamed `node-fetch`/`decompress` variant — `downloadFile` with a
  manual single-hop redirect, `downloadAndUnzipSqliteWasm` with a
  `strip: 1` + filter decompress call.

The JavaScript functions are embedded shallowly below.  Network, file
system and archive effects are made explicit: an HTTP exchange is the list
of responses the environment would return for the successive GET requests,
the file system is threaded as explicit state (a directory is a list of
named entries), and JS string primitives (`String.prototype.endsWith`,
`RegExp.test` with a literal pattern, `split('/')`/`slice(1)`/`join('/')`)
are modelled on the string's character list so that they evaluate inside
the kernel.
-/

/-- JS `s.endsWith(suffix)`, modelled on the character lists of the strings. -/
def strEndsWith (s suffix : String) : Bool :=
  List.isPrefixOf suffix.data.reverse s.data.reverse

/-- Substring occurrence test on character lists; `listHasSub pat l` is true
iff `pat` occurs contiguously in `l`. -/
def listHasSub (pat : List Char) : List Char → Bool
  | [] => pat.isEmpty
  | c :: rest => List.isPrefixOf pat (c :: rest) || listHasSub pat rest

/-- JS `/pat/.test(s)` for a literal (regex-free) pattern `pat`. -/
def strContains (s pat : String) : Bool := listHasSub pat.data s.data

/-- `Except.isOk` as a plain boolean, used to state success of a pipeline step. -/
def exceptOk {ε α : Type} : Except ε α → Bool
  | .ok _ => true
  | .error _ => false

/-- One release asset of the GitHub release metadata (`asset.name`,
`asset.browser_download_url`).  `size` is displayed only, so it is omitted. -/
structure Asset where
  name : String
  browser_download_url : String
deriving DecidableEq

/-- The release metadata the pipeline consumes.  Only the `assets` array
drives control flow (`release.assets && release.assets.length > 0`); the
display-only fields (`name`, `tag_name`, `published_at`, `body`) are not
modelled.  `none` models an absent `assets` field. -/
structure Release where
  assets : Option (List Asset)
deriving DecidableEq

/-- `release.assets.filter(asset => asset.name.endsWith('-wasm.zip'))`
(src/index.js line 194). -/
def wasmAssetsOf (assets : List Asset) : List Asset :=
  assets.filter (fun asset => strEndsWith asset.name "-wasm.zip")

/-- `wasmAssets[0]` guarded by `wasmAssets.length > 0` (src/index.js
lines 196, 204): the selected asset, `none` when no name matches. -/
def selectAsset (assets : List Asset) : Option Asset :=
  (wasmAssetsOf assets).head?

/-- What the environment presents to `fetchLatestRelease` (src/index.js
lines 14-57): either a network-level error with its message, or an HTTP
response with status code, the `x-ratelimit-remaining` header, the result
of `JSON.parse` on the body (`.error` holds the parse error's message) and
the body's `message` field when the error body itself parses. -/
inductive FetchEvent where
  | networkError (msg : String)
  | response (statusCode : Nat) (rateLimitRemaining : Option String)
      (parsed : Except String Release) (errMessage : Option String)

/-- `fetchLatestRelease` (src/index.js lines 14-57): status dispatch of the
release-metadata request, producing the release or the rejection message
(RateLimitExceeded, ApiError, parse failure, TransportError). -/
def fetchLatestRelease : FetchEvent → Except String Release
  | .networkError m => .error ("Request failed: " ++ m)
  | .response statusCode rateLimitRemaining parsed errMessage =>
    if statusCode == 200 then
      match parsed with
      | .ok release => .ok release
      | .error m => .error ("Failed to parse response: " ++ m)
    else if statusCode == 403 && rateLimitRemaining == some "0" then
      .error "GitHub API rate limit exceeded. Use GITHUB_TOKEN environment variable to increase the limit."
    else
      match errMessage with
      | some m => .error ("API request failed with status code " ++ toString statusCode ++ ": " ++ m)
      | none => .error ("API request failed with status code " ++ toString statusCode)

/-- One HTTP response for the `https`-variant downloader: status code,
`location` header (`none` when absent) and body bytes. -/
structure HttpResponse where
  statusCode : Nat
  location : Option String
  body : List Nat
deriving DecidableEq

/-- `handleResponse` of `downloadFile` (src/index.js lines 61-95) walked
over the environment's response list, counting the GET requests issued.
A 3xx response with a `location` header re-issues the request with
`handleResponse` itself as the callback, so redirects are followed
recursively; an exhausted response list models a request that errors. -/
def downloadHttpsGo : List HttpResponse → Nat → Except String (List Nat) × Nat
  | [], requests => (.error "Download error: request failed", requests)
  | r :: rest, requests =>
    if 300 ≤ r.statusCode && r.statusCode < 400 && r.location.isSome then
      downloadHttpsGo rest (requests + 1)
    else if r.statusCode != 200 then
      (.error ("Failed to download file: " ++ toString r.statusCode), requests)
    else
      (.ok r.body, requests)

/-- `downloadFile` of src/index.js (lines 59-105): the initial GET plus the
redirect recursion of `handleResponse`.  Returns the downloaded body (or
the rejection message) and the total number of GET requests issued. -/
def downloadFileHttps (responses : List HttpResponse) : Except String (List Nat) × Nat :=
  downloadHttpsGo responses 1

/-- One `node-fetch` response for the fetch-variant downloader. -/
structure FetchResponse where
  status : Nat
  location : Option String
  body : List Nat
deriving DecidableEq

/-- `response.ok` of node-fetch: status in the 2xx range. -/
def okStatus (status : Nat) : Bool := 200 ≤ status && status < 300

/-- The manual redirect test of the fetch-variant `downloadFile`:
`response.status >= 300 && response.status < 400 &&
response.headers.get('location')`. -/
def isRedirectResponse (r : FetchResponse) : Bool :=
  300 ≤ r.status && r.status < 400 && r.location.isSome

/-- Which response the fetch-variant `downloadFile` ends up reading the
body from, and how many fetch calls it makes: the first response, or —
after exactly one manual redirect hop — the second.  `none` models a fetch
call that threw (response list exhausted). -/
def fetchFinalResponse : List FetchResponse → Option FetchResponse × Nat
  | [] => (none, 1)
  | r1 :: rest =>
    if isRedirectResponse r1 then
      match rest with
      | [] => (none, 2)
      | r2 :: _ => (some r2, 2)
    else (some r1, 1)

/-- `downloadFile` of the fetch variant (unnamed part_001, lines 44-78),
with the written target file threaded as explicit state.  `writeError`
is the environment's answer for the body stream (`none`: the stream
finishes; `some m`: the stream errors with message `m`).  Returns the
promise outcome and the final state of the target file: `some bytes` when
the file exists with those bytes, `none` when it does not exist (every
failure path unlinks the target before re-throwing). -/
def downloadFileFetch (responses : List FetchResponse) (writeError : Option String) :
    Except String Unit × Option (List Nat) :=
  match fetchFinalResponse responses with
  | (none, _) => (.error "Download error: request failed", none)
  | (some finalResp, _) =>
    if !okStatus finalResp.status then
      (.error ("Download error: Failed to download file: " ++ toString finalResp.status), none)
    else
      match writeError with
      | some m => (.error ("Download error: File write error: " ++ m), none)
      | none => (.ok (), some finalResp.body)

/-- A file-system entry: a file with its byte content, or a directory with
its named children.  Trees are finite and acyclic by construction, which is
exactly the no-symbolic-link-cycle assumption of the directory search. -/
inductive Entry where
  | file (content : List Nat) : Entry
  | dir (entries : List (String × Entry)) : Entry

/-- `item.isDirectory()` of an `fs.readdir(..., { withFileTypes: true })` entry. -/
def isDirE : Entry → Bool
  | .dir _ => true
  | .file _ => false

/-- Resolve one name inside a directory listing (first entry with that
name; on a real file system the names of a directory are distinct, the
`wfDir` invariant below). -/
def lookupE (n : String) : List (String × Entry) → Option Entry
  | [] => none
  | (m, e) :: rest => if m == n then some e else lookupE n rest

/-- Resolve a relative path of directory names: `dirAt items p` is the
listing of the directory reached from `items` by following `p`, `none`
when some component is missing or is a file. -/
def dirAt (items : List (String × Entry)) : List String → Option (List (String × Entry))
  | [] => some items
  | n :: p =>
    match lookupE n items with
    | some (.dir sub) => dirAt sub p
    | _ => none

/-- Well-formedness of a directory tree: within any directory, the entry
names are pairwise distinct (true of every real file system directory). -/
def wfDir : List (String × Entry) → Bool
  | [] => true
  | (n, Entry.file _) :: rest => rest.all (fun it => it.1 != n) && wfDir rest
  | (n, Entry.dir sub) :: rest => rest.all (fun it => it.1 != n) && wfDir sub && wfDir rest

mutual

/-- `findJswasmDirectory` (src/index.js lines 154-176) on a directory
listing: first look for an immediate child directory named `jswasm`; if
none, recurse into the subdirectories in listing order.  Returns the
relative path (as the list of path components) of the found directory, the
counterpart of the `path.join`-built absolute path of the source. -/
def findJswasmDirectory (items : List (String × Entry)) : Option (List String) :=
  if items.any (fun it => it.1 == "jswasm" && isDirE it.2) then some ["jswasm"]
  else findJswasmDirectoryLoop items
termination_by (sizeOf items, 1)

/-- The `for (const item of items)` recursion of `findJswasmDirectory`:
the first subdirectory whose recursive search succeeds, prefixed with the
subdirectory's name. -/
def findJswasmDirectoryLoop : List (String × Entry) → Option (List String)
  | [] => none
  | (name, Entry.dir sub) :: rest =>
    (match findJswasmDirectory sub with
     | some p => some (name :: p)
     | none => findJswasmDirectoryLoop rest)
  | (_, Entry.file _) :: rest => findJswasmDirectoryLoop rest
termination_by items => (sizeOf items, 0)

end

/-- `fs.copy(sourcePath, targetPath)` for a single named entry into a
directory listing: overwrite the entry of that name, or append it. -/
def insertEntry (dst : List (String × Entry)) (n : String) (e : Entry) :
    List (String × Entry) :=
  if dst.any (fun it => it.1 == n) then
    dst.map (fun it => if it.1 == n then (n, e) else it)
  else dst ++ [(n, e)]

/-- The copy loop of `extractWasmFiles`: `for (const file of files)
await fs.copy(...)` — every entry of the found `jswasm` listing copied
into the destination `jswasm` listing. -/
def copyAll (dst : List (String × Entry)) (entries : List (String × Entry)) :
    List (String × Entry) :=
  entries.foldl (fun d it => insertEntry d it.1 it.2) dst

/-- The file-system outcome of `extractWasmFiles`: its boolean return
value, the final state of the `temp-extract` directory (`none`: it does
not exist), and the final listing of the destination's `jswasm` directory
(`none`: it was never created). -/
structure ExtractOutcome where
  success : Bool
  temp : Option (List (String × Entry))
  jswasmDest : Option (List (String × Entry))

/-- `extractWasmFiles` (src/index.js lines 107-152).  `zipContents` is the
tree the archive holds, `none` when the archive is corrupt so that the
`extract` call throws (the partially created temporary directory is
modelled as empty).  `destJswasm0` is the pre-existing listing of the
destination's `jswasm` directory.  Note the `catch` block only logs: the
temporary directory is not removed on the throw path. -/
def extractWasmFiles (zipContents : Option (List (String × Entry)))
    (destJswasm0 : Option (List (String × Entry))) : ExtractOutcome :=
  match zipContents with
  | none => { success := false, temp := some [], jswasmDest := destJswasm0 }
  | some tree =>
    match findJswasmDirectory tree with
    | some p =>
      { success := true, temp := none,
        jswasmDest := some (copyAll (destJswasm0.getD []) ((dirAt tree p).getD [])) }
    | none => { success := false, temp := none, jswasmDest := destJswasm0 }

/-- The observable outcome of one `main` run of src/index.js: the process
exit code, the console.log and console.error lines the model tracks,
whether a download was started, and whether the downloaded archive file is
still on disk when the process ends. -/
structure MainOutcome where
  exitCode : Nat
  logs : List String
  errs : List String
  downloadAttempted : Bool
  zipOnDisk : Bool
deriving DecidableEq

/-- The log line printed before the metadata request (src/index.js line 183). -/
def fetchingLog : String :=
  "Fetching latest release information for utelle/SQLite3MultipleCiphers..."

/-- The header printed before the asset check (src/index.js line 192). -/
def wasmHeaderLog : String := "WASM Build Files:"

/-- `main` of src/index.js (lines 178-233).  `fetched` is the outcome of
`fetchLatestRelease`, `downloadResult` the outcome the environment gives
`downloadFile` when it is called, `extractResult` the boolean
`extractWasmFiles` returns.  Release-display lines and per-asset listing
lines are omitted (they depend on fields the model drops); the lines that
the control flow selects between are kept verbatim.  A caught error prints
`Error: <message>` and exits 1; every other path ends the process with
exit code 0.  The downloaded archive is written by a successful
`downloadFile` and never deleted afterwards. -/
def mainPipeline (fetched : Except String Release) (downloadResult : Except String Unit)
    (extractResult : Bool) : MainOutcome :=
  match fetched with
  | .error msg => ⟨1, [fetchingLog], ["Error: " ++ msg], false, false⟩
  | .ok release =>
    match release.assets with
    | none => ⟨0, [fetchingLog, wasmHeaderLog, "No assets found for this release."], [], false, false⟩
    | some assets =>
      if assets.length > 0 then
        match selectAsset assets with
        | none =>
          ⟨0, [fetchingLog, wasmHeaderLog, "No WASM build files found in this release."], [], false, false⟩
        | some _selected =>
          match downloadResult with
          | .error m => ⟨1, [fetchingLog, wasmHeaderLog], ["Error: " ++ m], true, false⟩
          | .ok _ =>
            if extractResult then
              ⟨0, [fetchingLog, wasmHeaderLog,
                   "Successfully downloaded and extracted the WASM build."], [], true, true⟩
            else
              ⟨0, [fetchingLog, wasmHeaderLog],
               ["Extraction failed. The zip file may be corrupted or incompatible."], true, true⟩
      else ⟨0, [fetchingLog, wasmHeaderLog, "No assets found for this release."], [], false, false⟩

/-- One entry of a zip archive as the `decompress` library reports it:
its path inside the archive and its bytes. -/
structure ZipEntry where
  path : String
  data : List Nat
deriving DecidableEq

/-- The decompress `filter` option of `downloadAndUnzipSqliteWasm`
(unnamed part_000 lines 46-47): `/jswasm/.test(file.path) &&
/(\.mjs|\.wasm|\.js)$/.test(file.path)`. -/
def wasmFileFilter (p : String) : Bool :=
  strContains p "jswasm" && (strEndsWith p ".mjs" || strEndsWith p ".wasm" || strEndsWith p ".js")

/-- Characters after the first `/` — `p.split('/').slice(1).join('/')`
for `strip: 1` (the empty string when `p` has no `/`). -/
def dropThroughSlash : List Char → List Char
  | [] => []
  | c :: rest => if c = '/' then rest else dropThroughSlash rest

/-- The path rewrite `strip: 1` performs on one archive entry path. -/
def strip1 (p : String) : String := String.mk (dropThroughSlash p.data)

/-- `strip: 1` applied to one archive entry. -/
def stripEntry (f : ZipEntry) : ZipEntry := ⟨strip1 f.path, f.data⟩

/-- Modelled from the decompress library's documented `strip`/`filter`
semantics at the call site of part_000: every entry path loses its first
component, entries whose stripped path is empty are dropped, then the
caller's `filter` keeps the matching entries.  The result is exactly what
is written under the destination directory. -/
def decompressStripFilter (files : List ZipEntry) : List ZipEntry :=
  ((files.map stripEntry).filter (fun f => f.path.data.length > 0)).filter
    (fun f => wasmFileFilter f.path)

/-- The download response `downloadAndUnzipSqliteWasm` receives: its
status and its body bytes read as the archive's entry list. -/
structure DownloadResponse where
  status : Nat
  archive : List ZipEntry
deriving DecidableEq

/-- `downloadAndUnzipSqliteWasm` (unnamed part_000, lines 31-55).
`link` is the download URL (`none`: absent), `response` the fetch outcome
(`none`: the fetch threw), `decompressOk` whether the `decompress` call
succeeds on the archive.  Returns the promise outcome (the extracted entry
list on success) and whether the written `sqlite-wasm.zip` file is still
on disk when the function is left: the success path removes it with
`fs.rmSync`, but a `decompress` throw leaves it behind. -/
def downloadAndUnzipSqliteWasm (link : Option String) (response : Option DownloadResponse)
    (decompressOk : Bool) : Except String (List ZipEntry) × Bool :=
  match link with
  | none => (.error "Unable to find SQLite Wasm download link", false)
  | some url =>
    match response with
    | none => (.error "request failed", false)
    | some r =>
      if !okStatus r.status || r.status != 200 then
        (.error ("Unable to download SQLite Wasm from " ++ url), false)
      else if decompressOk then
        (.ok (decompressStripFilter r.archive), false)
      else
        (.error "decompress failed", true)

/-- A release with a present but empty asset array. -/
def emptyAssetsRelease : Release := ⟨some []⟩

/-- A release holding exactly one asset, whose name matches the WASM suffix. -/
def releaseOneWasm : Release := ⟨some [⟨"sqlite3-mc-wasm.zip", "https://x/sqlite3-mc-wasm.zip"⟩]⟩

/-- An archive holding `a/b/jswasm/x.wasm` and also a top-level directory
named `jswasm`, which the depth-first search finds first. -/
def shadowArchive : List (String × Entry) :=
  [("jswasm", Entry.dir []),
   ("a", Entry.dir [("b", Entry.dir [("jswasm", Entry.dir [("x.wasm", Entry.file [7])])])])]

/-- The `b` level of `nestedArchive`: the `jswasm` directory holding `x.wasm`. -/
def nestedArchiveB : List (String × Entry) :=
  [("jswasm", Entry.dir [("x.wasm", Entry.file [3])])]

/-- The `a` level of `nestedArchive`. -/
def nestedArchiveA : List (String × Entry) :=
  [("b", Entry.dir nestedArchiveB)]

/-- An archive whose only directory named `jswasm` is at `a/b/jswasm`,
holding `x.wasm` with content `[3]`. -/
def nestedArchive : List (String × Entry) :=
  [("a", Entry.dir nestedArchiveA)]

/-! ## Helper lemmas -/

theorem head?_filter_eq_find? {α : Type} (p : α → Bool) (l : List α) :
    (l.filter p).head? = l.find? p := by
  induction l with
  | nil => rfl
  | cons a t ih => by_cases h : p a <;> simp [List.filter_cons, List.find?, h, ih]

theorem sizeOf_entry_lt_of_mem {n : String} {e : Entry} {items : List (String × Entry)}
    (h : (n, e) ∈ items) : sizeOf e < sizeOf items := by
  induction items with
  | nil => cases h
  | cons a t ih =>
    rcases List.mem_cons.mp h with h1 | h2
    · subst h1; simp; omega
    · have := ih h2; simp; omega

theorem sizeOf_dir_sub_lt_of_mem {n : String} {sub : List (String × Entry)}
    {items : List (String × Entry)} (h : (n, Entry.dir sub) ∈ items) :
    sizeOf sub < sizeOf items := by
  have h1 := sizeOf_entry_lt_of_mem h
  have h2 : sizeOf (Entry.dir sub) = 1 + sizeOf sub := by simp
  omega

theorem lookupE_mem {n : String} {e : Entry} {items : List (String × Entry)}
    (h : lookupE n items = some e) : (n, e) ∈ items := by
  induction items with
  | nil => simp [lookupE] at h
  | cons a t ih =>
    obtain ⟨m, f⟩ := a
    simp only [lookupE] at h
    by_cases hm : (m == n) = true
    · rw [if_pos hm] at h
      injection h with h
      subst h
      have : m = n := by simpa using hm
      subst this
      exact List.mem_cons_self _ _
    · rw [if_neg hm] at h
      exact List.mem_cons_of_mem _ (ih h)

theorem wfDir_cons_parts {n : String} {e : Entry} {rest : List (String × Entry)}
    (h : wfDir ((n, e) :: rest) = true) :
    (∀ a b, (a, b) ∈ rest → a ≠ n) ∧ wfDir rest = true := by
  cases e <;> simp [wfDir] at h <;> tauto

theorem wfDir_sub_of_mem {items : List (String × Entry)} {n : String}
    {sub : List (String × Entry)} (hwf : wfDir items = true)
    (hm : (n, Entry.dir sub) ∈ items) : wfDir sub = true := by
  induction items with
  | nil => cases hm
  | cons a t ih =>
    rcases List.mem_cons.mp hm with h1 | h2
    · rw [← h1] at hwf
      simp [wfDir] at hwf
      tauto
    · obtain ⟨m, f⟩ := a
      exact ih (wfDir_cons_parts hwf).2 h2

theorem lookupE_of_mem_wf {items : List (String × Entry)} {n : String} {e : Entry}
    (hwf : wfDir items = true) (hm : (n, e) ∈ items) : lookupE n items = some e := by
  induction items with
  | nil => cases hm
  | cons a t ih =>
    obtain ⟨m, f⟩ := a
    rcases List.mem_cons.mp hm with h1 | h2
    · obtain ⟨hn, he⟩ := Prod.mk.injEq .. ▸ h1
      subst hn; subst he
      simp [lookupE]
    · have hparts := wfDir_cons_parts hwf
      have hne : n ≠ m := hparts.1 _ _ h2
      have hmn : (m == n) = false := by simpa using (Ne.symm hne)
      simp [lookupE, hmn]
      exact ih hparts.2 h2

theorem dirAt_cons_elim {items : List (String × Entry)} {n : String} {p : List String}
    {s : List (String × Entry)} (h : dirAt items (n :: p) = some s) :
    ∃ sub, lookupE n items = some (Entry.dir sub) ∧ dirAt sub p = some s := by
  simp only [dirAt] at h
  cases hl : lookupE n items with
  | none => rw [hl] at h; simp at h
  | some e =>
    cases e with
    | file c => rw [hl] at h; simp at h
    | dir sub => rw [hl] at h; exact ⟨sub, rfl, h⟩

theorem wfDir_dirAt {items : List (String × Entry)} {p : List String}
    {sub : List (String × Entry)} (hwf : wfDir items = true)
    (h : dirAt items p = some sub) : wfDir sub = true := by
  induction p generalizing items with
  | nil =>
    simp [dirAt] at h
    rw [← h]; exact hwf
  | cons n pr ih =>
    obtain ⟨s2, hl, hd⟩ := dirAt_cons_elim h
    exact ih (wfDir_sub_of_mem hwf (lookupE_mem hl)) hd

theorem any_jswasm_iff {items : List (String × Entry)} :
    items.any (fun it => it.1 == "jswasm" && isDirE it.2) = true ↔
      ∃ sub, ("jswasm", Entry.dir sub) ∈ items := by
  rw [List.any_eq_true]
  constructor
  · rintro ⟨⟨m, f⟩, hm, hp⟩
    simp only [Bool.and_eq_true, beq_iff_eq] at hp
    obtain ⟨rfl, hdir⟩ := hp
    cases f with
    | file c => simp [isDirE] at hdir
    | dir s => exact ⟨s, hm⟩
  · rintro ⟨sub, hm⟩
    exact ⟨_, hm, by simp [isDirE]⟩

theorem getLast?_cons_cons_eq {α : Type} (a b : α) (l : List α) :
    (a :: b :: l).getLast? = (b :: l).getLast? := by
  simp [List.getLast?]

theorem findJswasmLoop_some_elim {xs : List (String × Entry)} {p : List String}
    (h : findJswasmDirectoryLoop xs = some p) :
    ∃ n sub pr, p = n :: pr ∧ (n, Entry.dir sub) ∈ xs ∧
      findJswasmDirectory sub = some pr := by
  induction xs with
  | nil => simp [findJswasmDirectoryLoop] at h
  | cons a t ih =>
    obtain ⟨m, f⟩ := a
    cases f with
    | file c =>
      simp only [findJswasmDirectoryLoop] at h
      obtain ⟨n, sub, pr, h1, h2, h3⟩ := ih h
      exact ⟨n, sub, pr, h1, List.mem_cons_of_mem _ h2, h3⟩
    | dir s =>
      simp only [findJswasmDirectoryLoop] at h
      cases hf : findJswasmDirectory s with
      | some p' =>
        rw [hf] at h
        simp at h
        exact ⟨m, s, p', h.symm, List.mem_cons_self _ _, hf⟩
      | none =>
        rw [hf] at h
        simp at h
        obtain ⟨n, sub, pr, h1, h2, h3⟩ := ih h
        exact ⟨n, sub, pr, h1, List.mem_cons_of_mem _ h2, h3⟩

theorem findJswasmLoop_none_elim {xs : List (String × Entry)}
    (h : findJswasmDirectoryLoop xs = none) :
    ∀ n sub, (n, Entry.dir sub) ∈ xs → findJswasmDirectory sub = none := by
  induction xs with
  | nil => intro n sub hm; cases hm
  | cons a t ih =>
    obtain ⟨m, f⟩ := a
    intro n sub hm
    cases f with
    | file c =>
      simp only [findJswasmDirectoryLoop] at h
      rcases List.mem_cons.mp hm with h1 | h2
      · exact absurd h1 (by simp)
      · exact ih h n sub h2
    | dir s =>
      simp only [findJswasmDirectoryLoop] at h
      cases hf : findJswasmDirectory s with
      | some p' => rw [hf] at h; simp at h
      | none =>
        rw [hf] at h
        simp at h
        rcases List.mem_cons.mp hm with h1 | h2
        · obtain ⟨rfl, he⟩ : n = m ∧ Entry.dir sub = Entry.dir s := by simpa using h1
          obtain rfl : sub = s := by injection he
          exact hf
        · exact ih h n sub h2

theorem findJswasm_sound_aux :
    ∀ fuel : Nat, ∀ items : List (String × Entry), sizeOf items < fuel →
      wfDir items = true → ∀ p, findJswasmDirectory items = some p →
      ∃ sub, dirAt items p = some sub ∧ p.getLast? = some "jswasm" := by
  intro fuel
  induction fuel with
  | zero => intro items h; omega
  | succ fuel ih =>
    intro items hsz hwf p hfind
    unfold findJswasmDirectory at hfind
    by_cases hc : items.any (fun it => it.1 == "jswasm" && isDirE it.2) = true
    · rw [if_pos hc] at hfind
      injection hfind with hp
      obtain ⟨sub, hmem⟩ := any_jswasm_iff.mp hc
      have hlk := lookupE_of_mem_wf hwf hmem
      refine ⟨sub, ?_, ?_⟩
      · rw [← hp]
        simp [dirAt, hlk]
      · rw [← hp]; rfl
    · rw [if_neg hc] at hfind
      obtain ⟨n, sub, pr, rfl, hmem, hsub⟩ := findJswasmLoop_some_elim hfind
      have hwfs := wfDir_sub_of_mem hwf hmem
      have hszs : sizeOf sub < fuel := by
        have := sizeOf_dir_sub_lt_of_mem hmem
        omega
      obtain ⟨sub2, hd2, hl2⟩ := ih sub hszs hwfs pr hsub
      have hlk := lookupE_of_mem_wf hwf hmem
      refine ⟨sub2, ?_, ?_⟩
      · simp [dirAt, hlk, hd2]
      · cases pr with
        | nil => simp at hl2
        | cons q qr => rw [getLast?_cons_cons_eq]; exact hl2

theorem findJswasm_sound {items : List (String × Entry)} {p : List String}
    (hwf : wfDir items = true) (h : findJswasmDirectory items = some p) :
    ∃ sub, dirAt items p = some sub ∧ p.getLast? = some "jswasm" :=
  findJswasm_sound_aux (sizeOf items + 1) items (by omega) hwf p h

theorem findJswasm_complete_aux :
    ∀ fuel : Nat, ∀ items : List (String × Entry), sizeOf items < fuel →
      ∀ q s, dirAt items q = some s → q.getLast? = some "jswasm" →
      findJswasmDirectory items ≠ none := by
  intro fuel
  induction fuel with
  | zero => intro items h; omega
  | succ fuel ih =>
    intro items hsz q s hd hl hnone
    cases q with
    | nil => simp at hl
    | cons n qr =>
      obtain ⟨sub, hlk, hdr⟩ := dirAt_cons_elim hd
      unfold findJswasmDirectory at hnone
      by_cases hc : items.any (fun it => it.1 == "jswasm" && isDirE it.2) = true
      · rw [if_pos hc] at hnone; simp at hnone
      · rw [if_neg hc] at hnone
        cases qr with
        | nil =>
          have hn : n = "jswasm" := by simpa using hl
          subst hn
          exact hc (any_jswasm_iff.mpr ⟨sub, lookupE_mem hlk⟩)
        | cons q1 qr' =>
          have hl' : (q1 :: qr').getLast? = some "jswasm" := by
            rw [← getLast?_cons_cons_eq n q1 qr']; exact hl
          have hmem := lookupE_mem hlk
          have hszs : sizeOf sub < fuel := by
            have := sizeOf_dir_sub_lt_of_mem hmem
            omega
          exact ih sub hszs (q1 :: qr') s hdr hl' (findJswasmLoop_none_elim hnone n sub hmem)

theorem findJswasm_complete {items : List (String × Entry)} {q : List String}
    {s : List (String × Entry)} (hd : dirAt items q = some s)
    (hl : q.getLast? = some "jswasm") : findJswasmDirectory items ≠ none :=
  findJswasm_complete_aux (sizeOf items + 1) items (by omega) q s hd hl

theorem lookupE_cons_true {m n : String} {f : Entry} {t : List (String × Entry)}
    (h : (m == n) = true) : lookupE n ((m, f) :: t) = some f := by
  simp [lookupE, h]

theorem lookupE_cons_false {m n : String} {f : Entry} {t : List (String × Entry)}
    (h : (m == n) = false) : lookupE n ((m, f) :: t) = lookupE n t := by
  simp [lookupE, h]

theorem lookupE_map_replace_of_any {d : List (String × Entry)} {n : String} {e : Entry}
    (h : d.any (fun it => it.1 == n) = true) :
    lookupE n (d.map (fun it => if it.1 == n then (n, e) else it)) = some e := by
  induction d with
  | nil => simp at h
  | cons a t ih =>
    obtain ⟨m, f⟩ := a
    cases hm : m == n with
    | true =>
      have hhead : (if (m, f).1 == n then (n, e) else (m, f)) = (n, e) := by
        simp [hm]
      rw [List.map_cons, hhead, lookupE_cons_true (by simp)]
    | false =>
      have h' : t.any (fun it => it.1 == n) = true := by
        simp only [List.any_cons, hm, Bool.false_or] at h
        exact h
      have hhead : (if (m, f).1 == n then (n, e) else (m, f)) = (m, f) := by
        simp [hm]
      rw [List.map_cons, hhead, lookupE_cons_false hm]
      exact ih h'

theorem lookupE_append_not_found {d : List (String × Entry)} {n : String} {e : Entry}
    (h : d.any (fun it => it.1 == n) = false) :
    lookupE n (d ++ [(n, e)]) = some e := by
  induction d with
  | nil => simp [lookupE]
  | cons a t ih =>
    obtain ⟨m, f⟩ := a
    simp only [List.any_cons, Bool.or_eq_false_iff] at h
    rw [List.cons_append, lookupE_cons_false h.1]
    exact ih h.2

theorem lookupE_insertEntry_self {d : List (String × Entry)} {n : String} {e : Entry} :
    lookupE n (insertEntry d n e) = some e := by
  unfold insertEntry
  by_cases h : d.any (fun it => it.1 == n) = true
  · rw [if_pos h]; exact lookupE_map_replace_of_any h
  · rw [if_neg h]
    have h' : d.any (fun it => it.1 == n) = false := by
      cases hany : d.any (fun it => it.1 == n) with
      | false => rfl
      | true => exact absurd hany h
    exact lookupE_append_not_found h'

theorem lookupE_map_replace_other {d : List (String × Entry)} {n m : String} {e : Entry}
    (hne : m ≠ n) :
    lookupE m (d.map (fun it => if it.1 == n then (n, e) else it)) = lookupE m d := by
  induction d with
  | nil => rfl
  | cons a t ih =>
    obtain ⟨k, f⟩ := a
    cases hk : k == n with
    | true =>
      have hhead : (if (k, f).1 == n then (n, e) else (k, f)) = (n, e) := by
        simp [hk]
      have h1 : (n == m) = false := by simpa using (Ne.symm hne)
      have h2 : (k == m) = false := by
        have hkn : k = n := by simpa using hk
        rw [hkn]; exact h1
      rw [List.map_cons, hhead, lookupE_cons_false h1, lookupE_cons_false h2]
      exact ih
    | false =>
      have hhead : (if (k, f).1 == n then (n, e) else (k, f)) = (k, f) := by
        simp [hk]
      rw [List.map_cons, hhead]
      cases hkm : k == m with
      | true => rw [lookupE_cons_true hkm, lookupE_cons_true hkm]
      | false =>
        rw [lookupE_cons_false hkm, lookupE_cons_false hkm]
        exact ih

theorem lookupE_append_single_other {d : List (String × Entry)} {n m : String} {e : Entry}
    (hne : m ≠ n) : lookupE m (d ++ [(n, e)]) = lookupE m d := by
  induction d with
  | nil =>
    have h1 : (n == m) = false := by simpa using (Ne.symm hne)
    simp [lookupE, h1]
  | cons a t ih =>
    obtain ⟨k, f⟩ := a
    rw [List.cons_append]
    cases hkm : k == m with
    | true => rw [lookupE_cons_true hkm, lookupE_cons_true hkm]
    | false =>
      rw [lookupE_cons_false hkm, lookupE_cons_false hkm]
      exact ih

theorem lookupE_insertEntry_other {d : List (String × Entry)} {n m : String} {e : Entry}
    (hne : m ≠ n) : lookupE m (insertEntry d n e) = lookupE m d := by
  unfold insertEntry
  by_cases h : d.any (fun it => it.1 == n) = true
  · rw [if_pos h]; exact lookupE_map_replace_other hne
  · rw [if_neg h]; exact lookupE_append_single_other hne

theorem copyAll_cons {d : List (String × Entry)} {a : String × Entry}
    {t : List (String × Entry)} : copyAll d (a :: t) = copyAll (insertEntry d a.1 a.2) t := rfl

theorem copyAll_lookup_not_mem {entries : List (String × Entry)} {n : String}
    (h : ∀ a b, (a, b) ∈ entries → a ≠ n) :
    ∀ d, lookupE n (copyAll d entries) = lookupE n d := by
  induction entries with
  | nil => intro d; rfl
  | cons a t ih =>
    intro d
    obtain ⟨m, f⟩ := a
    rw [copyAll_cons]
    rw [ih (fun a b hm => h a b (List.mem_cons_of_mem _ hm)) _]
    exact lookupE_insertEntry_other fun hh => (h m f (List.mem_cons_self _ _)) hh.symm

theorem copyAll_lookup_mem {entries : List (String × Entry)} {n : String} {e : Entry}
    (hwf : wfDir entries = true) (hm : (n, e) ∈ entries) :
    ∀ d, lookupE n (copyAll d entries) = some e := by
  induction entries with
  | nil => cases hm
  | cons a t ih =>
    intro d
    obtain ⟨m, f⟩ := a
    have hparts := wfDir_cons_parts hwf
    rcases List.mem_cons.mp hm with h1 | h2
    · obtain ⟨rfl, rfl⟩ : n = m ∧ e = f := by simpa using h1
      rw [copyAll_cons]
      rw [copyAll_lookup_not_mem hparts.1 _]
      exact lookupE_insertEntry_self
    · rw [copyAll_cons]
      exact ih hparts.2 h2 _

theorem dirAt_singleton_elim {m : String} {e : List (String × Entry)} {q0 : String}
    {qr : List String} {s : List (String × Entry)}
    (h : dirAt [(m, Entry.dir e)] (q0 :: qr) = some s) : q0 = m ∧ dirAt e qr = some s := by
  obtain ⟨s1, hl1, hd1⟩ := dirAt_cons_elim h
  by_cases hq : (m == q0) = true
  · have hmq : m = q0 := by simpa using hq
    rw [show lookupE q0 [(m, Entry.dir e)] = some (Entry.dir e) from by simp [lookupE, hq]] at hl1
    injection hl1 with h1
    injection h1 with h2
    rw [← h2] at hd1
    exact ⟨hmq.symm, hd1⟩
  · rw [show lookupE q0 [(m, Entry.dir e)] = none from by simp [lookupE, hq]] at hl1
    cases hl1

theorem dirAt_fileonly_elim {m : String} {c : List Nat} {q0 : String} {qr : List String}
    {s : List (String × Entry)}
    (h : dirAt [(m, Entry.file c)] (q0 :: qr) = some s) : False := by
  obtain ⟨s1, hl1, _⟩ := dirAt_cons_elim h
  by_cases hq : (m == q0) = true
  · rw [show lookupE q0 [(m, Entry.file c)] = some (Entry.file c) from by simp [lookupE, hq]] at hl1
    injection hl1 with h1
    exact Entry.noConfusion h1
  · rw [show lookupE q0 [(m, Entry.file c)] = none from by simp [lookupE, hq]] at hl1
    cases hl1

theorem nestedArchive_unique :
    ∀ q s, dirAt nestedArchive q = some s → q.getLast? = some "jswasm" →
      q = ["a", "b", "jswasm"] := by
  intro q s hd hl
  cases q with
  | nil => simp at hl
  | cons q0 qr =>
    unfold nestedArchive at hd
    obtain ⟨hq0, hd1⟩ := dirAt_singleton_elim hd
    subst hq0
    cases qr with
    | nil => exact absurd hl (by decide)
    | cons q1 qr' =>
      unfold nestedArchiveA at hd1
      obtain ⟨hq1, hd2⟩ := dirAt_singleton_elim hd1
      subst hq1
      cases qr' with
      | nil => exact absurd hl (by decide)
      | cons q2 qr'' =>
        unfold nestedArchiveB at hd2
        obtain ⟨hq2, hd3⟩ := dirAt_singleton_elim hd2
        subst hq2
        cases qr'' with
        | nil => rfl
        | cons q3 qr3 => exact (dirAt_fileonly_elim hd3).elim

/-- Claim C1: for every release asset list, the selector keeps exactly the
assets whose name ends in the fixed WASM-archive suffix `-wasm.zip`, and
the selected asset is the first match in the original list order (the
`find?` of the suffix test over the original list). -/
theorem selectorKeepsSuffixPicksFirst (assets : List Asset) :
    (∀ a : Asset, a ∈ wasmAssetsOf assets ↔
       a ∈ assets ∧ strEndsWith a.name "-wasm.zip" = true)
    ∧ selectAsset assets = assets.find? (fun a => strEndsWith a.name "-wasm.zip") := by
  constructor
  · intro a
    simp [wasmAssetsOf, List.mem_filter]
  · exact head?_filter_eq_find? _ _

/-- Claim C2 counterexample: for a release whose asset array is present but
empty — an asset list with zero assets matching the WASM suffix — the
pipeline attempts no download and raises no error, but no emitted console
line contains the phrase `WASM build files found`: it prints
`No assets found for this release.` instead of the claimed message. -/
theorem mainEmptyAssetsWrongMessage :
    (mainPipeline (.ok emptyAssetsRelease) (.ok ()) true).downloadAttempted = false
    ∧ (mainPipeline (.ok emptyAssetsRelease) (.ok ()) true).exitCode = 0
    ∧ ((mainPipeline (.ok emptyAssetsRelease) (.ok ()) true).logs
        ++ (mainPipeline (.ok emptyAssetsRelease) (.ok ()) true).errs).all
        (fun line => !strContains line "WASM build files found") = true := by
  decide

/-- Claim C2 (amended): for every release whose asset array is present and
non-empty but contains zero assets matching the WASM suffix, the pipeline
attempts no download, prints the line
`No WASM build files found in this release.` and exits without error. -/
theorem mainZeroMatchNonemptyReports (assets : List Asset)
    (downloadResult : Except String Unit) (extractResult : Bool)
    (hne : assets ≠ []) (hmatch : wasmAssetsOf assets = []) :
    mainPipeline (.ok ⟨some assets⟩) downloadResult extractResult =
      ⟨0, [fetchingLog, wasmHeaderLog, "No WASM build files found in this release."],
       [], false, false⟩ := by
  have hlen : assets.length > 0 := by
    cases assets with
    | nil => exact absurd rfl hne
    | cons a t => simp
  have hsel : selectAsset assets = none := by
    rw [selectAsset, hmatch]
    rfl
  unfold mainPipeline
  simp [hlen, hsel]

/-- Claim C2 witness: the amended statement at a concrete one-element
asset list whose name does not match the suffix. -/
theorem mainZeroMatchNonemptyReportsW :
    mainPipeline (.ok ⟨some [⟨"source.tar.gz", "u"⟩]⟩) (.ok ()) true =
      ⟨0, [fetchingLog, wasmHeaderLog, "No WASM build files found in this release."],
       [], false, false⟩ :=
  mainZeroMatchNonemptyReports [⟨"source.tar.gz", "u"⟩] (.ok ()) true (by decide) (by decide)

/-- Claim C3 counterexample: presented with a 301 redirect, a 302 redirect
and then a 200 response, the https-variant downloader issues three GET
requests — the redirect in the second response is followed as well — and
succeeds with the third response's body, so redirects are not limited to a
single hop. -/
theorem downloadHttpsFollowsChain :
    downloadFileHttps
      [⟨301, some "https://first", []⟩, ⟨302, some "https://second", []⟩,
       ⟨200, none, [1, 2, 3]⟩]
      = (.ok [1, 2, 3], 3) := rfl

/-- Claim C3 (amended): the single-hop discipline holds of the fetch-based
variant's downloader: it issues at most two requests on any response
sequence, and when the second response is itself a redirect, that redirect
is not followed — the download fails with the second response's status. -/
theorem downloadFetchSingleHop (responses : List FetchResponse)
    (writeError : Option String) :
    (fetchFinalResponse responses).2 ≤ 2
    ∧ (∀ r1 r2 rest, responses = r1 :: r2 :: rest →
        isRedirectResponse r1 = true → isRedirectResponse r2 = true →
        (downloadFileFetch responses writeError).1 =
          .error ("Download error: Failed to download file: " ++ toString r2.status)) := by
  constructor
  · cases responses with
    | nil => simp [fetchFinalResponse]
    | cons r1 rest =>
      simp only [fetchFinalResponse]
      by_cases h : isRedirectResponse r1 = true
      · rw [if_pos h]
        cases rest <;> simp
      · rw [if_neg h]
        simp
  · rintro r1 r2 rest rfl h1 h2
    have h300 : 300 ≤ r2.status := by
      unfold isRedirectResponse at h2
      simp only [Bool.and_eq_true, decide_eq_true_eq] at h2
      exact h2.1.1
    have hok : okStatus r2.status = false := by
      unfold okStatus
      have hnot : ¬(r2.status < 300) := by omega
      simp [hnot]
    have hfr : fetchFinalResponse (r1 :: r2 :: rest) = (some r2, 2) := by
      simp only [fetchFinalResponse]
      rw [if_pos h1]
    unfold downloadFileFetch
    rw [hfr]
    simp [hok]

/-- Claim C4: the fetch-variant downloader's target-file guarantee: after
the call, the target file exists iff the download succeeded, in which case
it holds exactly the final response's complete body; after any failure
(non-success status after at most one redirect, or a stream write error)
no partial target file persists. -/
theorem downloadFetchFileState (responses : List FetchResponse)
    (writeError : Option String) :
    (downloadFileFetch responses writeError).2 =
      if exceptOk (downloadFileFetch responses writeError).1 = true
      then ((fetchFinalResponse responses).1).map FetchResponse.body
      else none := by
  unfold downloadFileFetch
  cases hf : fetchFinalResponse responses with
  | mk firstResp count =>
    cases firstResp with
    | none => simp [exceptOk]
    | some r =>
      by_cases hok : okStatus r.status = true
      · cases writeError <;> simp [hok, exceptOk]
      · have hok' : okStatus r.status = false := by
          cases h2 : okStatus r.status with
          | false => rfl
          | true => exact absurd h2 hok
        simp [hok', exceptOk]

/-- Claim C5 counterexample: `shadowArchive` holds the file
`a/b/jswasm/x.wasm` with content `[7]`, yet running the extractor on it
succeeds with an empty destination `jswasm` directory: the depth-first
search finds the top-level `jswasm` directory first, so
`<destination>/jswasm/x.wasm` is not produced. -/
theorem extractShadowedJswasmMissesFile :
    dirAt shadowArchive ["a", "b", "jswasm"] = some [("x.wasm", Entry.file [7])]
    ∧ (extractWasmFiles (some shadowArchive) none).success = true
    ∧ (extractWasmFiles (some shadowArchive) none).temp = none
    ∧ (extractWasmFiles (some shadowArchive) none).jswasmDest = some [] := by
  have hfind : findJswasmDirectory shadowArchive = some ["jswasm"] := by
    unfold findJswasmDirectory
    rw [if_pos (by decide)]
  refine ⟨rfl, ?_, ?_, ?_⟩ <;>
  · simp only [extractWasmFiles]
    rw [hfind]
    try rfl

/-- Claim C5 (amended): for every archive whose only directory named
`jswasm` is the one at the nested path `a/b/jswasm`, and which holds
`x.wasm` with content `c` there, the extractor succeeds, the destination's
`jswasm` directory receives `x.wasm` with the identical content `c`, and
the temporary extraction directory no longer exists afterwards. -/
theorem extractUniqueNestedJswasm
    (tree : List (String × Entry)) (a b : String) (c : List Nat)
    (jsub : List (String × Entry)) (destJswasm0 : Option (List (String × Entry)))
    (hwf : wfDir tree = true)
    (hdir : dirAt tree [a, b, "jswasm"] = some jsub)
    (hx : lookupE "x.wasm" jsub = some (Entry.file c))
    (huniq : ∀ q s, dirAt tree q = some s → q.getLast? = some "jswasm" →
        q = [a, b, "jswasm"]) :
    (extractWasmFiles (some tree) destJswasm0).success = true
    ∧ (extractWasmFiles (some tree) destJswasm0).temp = none
    ∧ ∃ dj, (extractWasmFiles (some tree) destJswasm0).jswasmDest = some dj
        ∧ lookupE "x.wasm" dj = some (Entry.file c) := by
  have hne := findJswasm_complete hdir (by rfl)
  cases hfind : findJswasmDirectory tree with
  | none => exact absurd hfind hne
  | some p =>
    obtain ⟨sub, hdp, hlast⟩ := findJswasm_sound hwf hfind
    have hp : p = [a, b, "jswasm"] := huniq p sub hdp hlast
    subst hp
    have hsub : sub = jsub := by
      rw [hdp] at hdir
      injection hdir
    subst hsub
    have hwfsub : wfDir sub = true := wfDir_dirAt hwf hdp
    have hmem := lookupE_mem hx
    simp only [extractWasmFiles]
    rw [hfind]
    refine ⟨rfl, rfl,
      copyAll (destJswasm0.getD []) ((dirAt tree [a, b, "jswasm"]).getD []), rfl, ?_⟩
    rw [hdp]
    exact copyAll_lookup_mem hwfsub hmem _

/-- Claim C5 witness: the amended statement at the concrete archive whose
single `jswasm` directory sits at `a/b/jswasm` and holds `x.wasm` = `[3]`. -/
theorem extractUniqueNestedJswasmW :
    (extractWasmFiles (some nestedArchive) none).success = true
    ∧ (extractWasmFiles (some nestedArchive) none).temp = none
    ∧ ∃ dj, (extractWasmFiles (some nestedArchive) none).jswasmDest = some dj
        ∧ lookupE "x.wasm" dj = some (Entry.file [3]) :=
  extractUniqueNestedJswasm nestedArchive "a" "b" [3]
    [("x.wasm", Entry.file [3])] none
    (by simp [wfDir, nestedArchive, nestedArchiveA, nestedArchiveB])
    (by rfl) (by rfl) nestedArchive_unique

/-- Claim C6 counterexample: when the archive is corrupt, so that the
`extract` call throws, `extractWasmFiles` returns false and the temporary
extraction directory still exists afterwards: the catch block only logs
and never removes it. -/
theorem extractCorruptLeavesTemp :
    (extractWasmFiles none none).temp = some []
    ∧ (extractWasmFiles none none).success = false :=
  ⟨rfl, rfl⟩

/-- Claim C6 (amended): the temporary extraction directory is removed
before `extractWasmFiles` returns on the success path and on the
jswasm-not-found path — every run in which extraction itself does not
throw — but it persists on the extraction-throw path. -/
theorem extractTempCleanup (tree : List (String × Entry))
    (destJswasm0 : Option (List (String × Entry))) :
    (extractWasmFiles (some tree) destJswasm0).temp = none
    ∧ (extractWasmFiles none destJswasm0).temp = some [] := by
  constructor
  · simp only [extractWasmFiles]
    cases findJswasmDirectory tree with
    | none => rfl
    | some p => rfl
  · rfl

/-- Claim C7 counterexample: a fully successful run of the
`src/index.js` pipeline (one matching asset, download and extraction both
succeed, exit code 0) ends with the downloaded archive file still on
disk: `main` never deletes the zip it downloaded. -/
theorem mainSuccessKeepsZip :
    (mainPipeline (.ok releaseOneWasm) (.ok ()) true).exitCode = 0
    ∧ (mainPipeline (.ok releaseOneWasm) (.ok ()) true).zipOnDisk = true := by
  decide

/-- Claim C7 (amended): in the decompress-based variant, the downloaded
archive `sqlite-wasm.zip` is transient: whenever
`downloadAndUnzipSqliteWasm` succeeds, the zip file is no longer on disk
when it returns, the extracted entries being its only output. -/
theorem decompressVariantRemovesZip (link : Option String)
    (response : Option DownloadResponse) (decompressOk : Bool)
    (files : List ZipEntry)
    (h : (downloadAndUnzipSqliteWasm link response decompressOk).1 = .ok files) :
    (downloadAndUnzipSqliteWasm link response decompressOk).2 = false := by
  cases link with
  | none => rfl
  | some url =>
    cases response with
    | none => rfl
    | some r =>
      by_cases hst : (!okStatus r.status || r.status != 200) = true
      · simp only [downloadAndUnzipSqliteWasm]
        rw [if_pos hst]
      · simp only [downloadAndUnzipSqliteWasm] at h ⊢
        rw [if_neg hst] at h ⊢
        cases decompressOk with
        | true => rw [if_pos rfl]
        | false =>
          rw [if_neg (by simp)] at h
          exact Except.noConfusion h

/-- Claim C7 witness: the amended statement at a concrete successful run. -/
theorem decompressVariantRemovesZipW :
    (downloadAndUnzipSqliteWasm (some "u") (some ⟨200, []⟩) true).2 = false :=
  decompressVariantRemovesZip (some "u") (some ⟨200, []⟩) true [] (by rfl)

/-- Claim C8 counterexample: a run with a successful fetch and download
whose extraction fails — an ExtractionError — prints the failure to
standard error but terminates with exit code 0, so exit code 0 does not
imply success and ExtractionError never reaches the top-level handler. -/
theorem mainExtractionFailureExitsZero :
    (mainPipeline (.ok releaseOneWasm) (.ok ()) false).exitCode = 0
    ∧ (mainPipeline (.ok releaseOneWasm) (.ok ()) false).errs =
        ["Extraction failed. The zip file may be corrupted or incompatible."] := by
  decide

/-- Claim C8 (amended): every fetch-stage error (RateLimitExceeded,
ApiError, TransportError, parse failure — the rejections of
`fetchLatestRelease`) and every download error reaches the top-level
catch, is printed to standard error with the `Error: ` prefix, and makes
the process exit 1; every other run — extraction failures included —
exits 0, and exit code 1 occurs only for fetch or download errors. -/
theorem mainExitCodePolicy (ev : FetchEvent) (downloadResult : Except String Unit)
    (extractResult : Bool) :
    ((mainPipeline (fetchLatestRelease ev) downloadResult extractResult).exitCode = 0
      ∨ (mainPipeline (fetchLatestRelease ev) downloadResult extractResult).exitCode = 1)
    ∧ (∀ m, fetchLatestRelease ev = .error m →
        mainPipeline (fetchLatestRelease ev) downloadResult extractResult =
          ⟨1, [fetchingLog], ["Error: " ++ m], false, false⟩)
    ∧ (∀ m, downloadResult = .error m →
        (mainPipeline (fetchLatestRelease ev) downloadResult extractResult).downloadAttempted
          = true →
        (mainPipeline (fetchLatestRelease ev) downloadResult extractResult).exitCode = 1
        ∧ (mainPipeline (fetchLatestRelease ev) downloadResult extractResult).errs
            = ["Error: " ++ m])
    ∧ ((mainPipeline (fetchLatestRelease ev) downloadResult extractResult).exitCode = 1 →
        exceptOk (fetchLatestRelease ev) = false ∨ exceptOk downloadResult = false) := by
  generalize fetchLatestRelease ev = fetched
  cases fetched with
  | error msg =>
    refine ⟨Or.inr rfl, ?_, ?_, ?_⟩
    · intro m hm
      injection hm with hm
      rw [hm]
      rfl
    · intro m _ hda
      cases hda
    · intro _
      exact Or.inl rfl
  | ok release =>
    obtain ⟨oassets⟩ := release
    cases oassets with
    | none =>
      refine ⟨Or.inl rfl, ?_, ?_, ?_⟩
      · intro m hm; cases hm
      · intro m _ hda; cases hda
      · intro h0; cases h0
    | some assets =>
      by_cases hlen : assets.length > 0
      · cases hsel : selectAsset assets with
        | none =>
          refine ⟨?_, ?_, ?_, ?_⟩ <;> simp [mainPipeline, hlen, hsel]
        | some sel =>
          cases downloadResult with
          | error m =>
            refine ⟨?_, ?_, ?_, ?_⟩ <;> simp [mainPipeline, hlen, hsel, exceptOk]
          | ok u =>
            cases extractResult <;>
              refine ⟨?_, ?_, ?_, ?_⟩ <;> simp [mainPipeline, hlen, hsel, exceptOk]
      · refine ⟨?_, ?_, ?_, ?_⟩ <;> simp [mainPipeline, hlen]

/-- Claim C9: the recursive directory search is a total function of the
model (the model's directory trees are finite and contain no
symbolic-link cycles by construction), and on every well-formed tree it
returns either `none` or a path that resolves to a directory of the
tree. -/
theorem findJswasmTerminatesSound (items : List (String × Entry))
    (hwf : wfDir items = true) :
    findJswasmDirectory items = none
    ∨ ∃ p sub, findJswasmDirectory items = some p ∧ dirAt items p = some sub := by
  cases h : findJswasmDirectory items with
  | none => exact Or.inl rfl
  | some p =>
    obtain ⟨sub, hs, _⟩ := findJswasm_sound hwf h
    exact Or.inr ⟨p, sub, rfl, hs⟩

/-- Claim C9 witness: the search statement at a concrete well-formed tree. -/
theorem findJswasmTerminatesSoundW :
    findJswasmDirectory nestedArchive = none
    ∨ ∃ p sub, findJswasmDirectory nestedArchive = some p
        ∧ dirAt nestedArchive p = some sub :=
  findJswasmTerminatesSound nestedArchive
    (by simp [wfDir, nestedArchive, nestedArchiveA, nestedArchiveB])

theorem wasmFilter_path_nonempty {p : String} (h : wasmFileFilter p = true) :
    p.data.length > 0 := by
  unfold wasmFileFilter at h
  rw [Bool.and_eq_true] at h
  have h1 := h.1
  unfold strContains at h1
  cases hp : p.data with
  | nil =>
    rw [hp] at h1
    exact absurd h1 (by decide)
  | cons c cs => simp [hp]

/-- Claim C10: in the decompress variant, the destination directory
receives exactly those archive entries that, after one leading path
component is stripped, have a path containing `jswasm` and ending in
`.mjs`, `.wasm` or `.js`; every other entry of the archive — non-code
files inside the jswasm directory included — is omitted. -/
theorem decompressFilterSpec (files : List ZipEntry) (e : ZipEntry) :
    e ∈ decompressStripFilter files ↔
      (∃ f ∈ files, e = stripEntry f) ∧ wasmFileFilter e.path = true := by
  unfold decompressStripFilter
  constructor
  · intro h
    rw [List.mem_filter] at h
    obtain ⟨h1, hfil⟩ := h
    rw [List.mem_filter] at h1
    obtain ⟨h2, _⟩ := h1
    rw [List.mem_map] at h2
    obtain ⟨f, hf, hef⟩ := h2
    exact ⟨⟨f, hf, hef.symm⟩, hfil⟩
  · rintro ⟨⟨f, hf, rfl⟩, hfil⟩
    rw [List.mem_filter]
    refine ⟨?_, hfil⟩
    rw [List.mem_filter]
    refine ⟨List.mem_map.mpr ⟨f, hf, rfl⟩, ?_⟩
    simpa using wasmFilter_path_nonempty hfil
